import Mathlib

/-!
Shallow embedding of the MIX computer simulator (src/simulator.py).

Words and registers are signed-magnitude: a sign flag plus a natural-number
magnitude. The byte radix (max_byte_size in the source) is passed explicitly
to every function that depends on it. Memory is a Lean list of words, and the
memory indexing of the source (Python list subscription, which accepts
negative indices) is modelled by pyGetItem below.
-/

namespace Mix

/-- Mirrors class Sign: each register and memory cell has a 1-bit sign. -/
inductive Sign where
  | POS
  | NEG
deriving DecidableEq

/-- Mirrors the numeric value of the Sign enum members (POS = 1, NEG = -1). -/
def Sign.value : Sign → Int
  | .POS => 1
  | .NEG => -1

/-- Mirrors class Comparison (comparison indicator states). -/
inductive Comparison where
  | LESS
  | EQUAL
  | GREATER
deriving DecidableEq

/-- Mirrors class Word: a sign and a magnitude. The constructor taking an
integer is Word.ofInt below. -/
structure Word where
  sign : Sign
  value : Nat
deriving DecidableEq

/-- Mirrors Word.__init__: value := abs(value); sign POS when value >= 0 and
NEG when value < 0. -/
def Word.ofInt (v : Int) : Word :=
  { value := v.natAbs
    sign := if 0 ≤ v then Sign.POS else Sign.NEG }

/-- Mirrors class Register: sign, magnitude and a byte-width tag. -/
structure Register where
  sign : Sign
  value : Nat
  num_bytes : Nat
deriving DecidableEq

/-- Mirrors Register.__init__(num_bytes): sign POS, value 0. -/
def Register.init (num_bytes : Nat) : Register :=
  { sign := Sign.POS, value := 0, num_bytes := num_bytes }

/-- Mirrors Simulator._get_bytes: the loop appends value and divides by
max_byte_size five times, reverses the quotient list and takes each quotient
mod the byte size, giving the five big-endian byte digits. -/
def _get_bytes (B value : Nat) : List Nat :=
  let quotients : List Nat :=
    [value, value / B, value / B / B, value / B / B / B, value / B / B / B / B]
  quotients.reverse.map (fun q => q % B)

/-- The accumulator loop of Simulator._bytes_to_val: walks the (already
reversed) byte list keeping a running value and a place counter. -/
def _bytes_to_val_go (B : Nat) : List Nat → Nat → Nat → Nat
  | [], val, _ => val
  | b :: rest, val, place => _bytes_to_val_go B rest (val + b * B ^ place) (place + 1)

/-- Mirrors Simulator._bytes_to_val: positional evaluation of a byte list,
iterating over the reversed list. -/
def _bytes_to_val (B : Nat) (bs : List Nat) : Nat :=
  _bytes_to_val_go B bs.reverse 0 0

/-- Mirrors Simulator.get_field_specification: F is split as (F div 8, F mod 8). -/
def get_field_specification (F : Nat) : Nat × Nat :=
  (F / 8, F % 8)

/-- Mirrors Simulator.get_field_val(start, end, word): decrement start, slice
the byte list as Python bs[start:end], and re-evaluate. -/
def get_field_val (B start fin v : Nat) : Nat :=
  let start1 := start - 1
  let bs := _get_bytes B v
  let bs := (bs.drop start1).take (fin - start1)
  _bytes_to_val B bs

/-- Python list subscription lst[i] as used for self.memory[address]:
a nonnegative index within range returns that element, a negative index with
-len <= i < 0 silently returns the element at len + i (wraparound from the
end), and anything else raises IndexError, modelled as none. -/
def pyGetItem {α : Type} (l : List α) (i : Int) : Option α :=
  if 0 ≤ i then l.get? i.toNat
  else if -i ≤ (l.length : Int) then l.get? (l.length - (-i).toNat)
  else none

/-- Python tail slice lst[-1 * n :] as used on reg_bytes in Simulator.ST:
for n > 0 this keeps the last n elements (all of them when n exceeds the
length), for n = 0 the slice index is 0 and the whole list is kept, and for
negative n the start index -n is nonnegative and the slice drops -n elements. -/
def pyTailSlice {α : Type} (l : List α) (n : Int) : List α :=
  if 0 < n then l.drop (l.length - n.toNat)
  else if n = 0 then l
  else l.drop (-n).toNat

/-- Mirrors Simulator.LD(register, address, F) after the memory fetch: decode
the field, force the left index to 1 when it is 0 (remembering to use the
sign of the source word), load the selected field value and the resulting
sign into the register. -/
def LD (B : Nat) (register : Register) (word : Word) (F : Nat) : Register :=
  let spec := get_field_specification F
  let use_sign := spec.1 = 0
  let spec2 := if spec.1 = 0 then (1, spec.2) else spec
  { register with
    sign := if use_sign then word.sign else Sign.POS
    value := get_field_val B spec2.1 spec2.2 word.value }

/-- The memory fetch line word = self.memory[address] of Simulator.LD,
composed with the rest of LD; the Python subscript semantics are pyGetItem. -/
def LD_mem (B : Nat) (register : Register) (memory : List Word) (address : Int)
    (F : Nat) : Option Register :=
  (pyGetItem memory address).map (fun word => LD B register word F)

/-- Mirrors Simulator.ST(register, address, F): when the field includes the
sign position the sign of the memory word is replaced by the register sign;
the last (1 + R - L) register bytes replace bytes L..R of the memory word. -/
def ST (B : Nat) (register : Register) (word : Word) (F : Nat) : Word :=
  let spec := get_field_specification F
  let signAfter := if spec.1 = 0 then register.sign else word.sign
  let spec2 := if spec.1 = 0 then (1, spec.2) else spec
  let reg_bytes := _get_bytes B register.value
  let mem_bytes := _get_bytes B word.value
  let num_bytes_needed : Int := 1 + (spec2.2 : Int) - (spec2.1 : Int)
  let reg_bytes2 := pyTailSlice reg_bytes num_bytes_needed
  let new_bytes := mem_bytes.take (spec2.1 - 1) ++ reg_bytes2 ++ mem_bytes.drop spec2.2
  { sign := signAfter, value := _bytes_to_val B new_bytes }

/-- The operand-extraction lines shared verbatim by Simulator.ADD and
Simulator.SUB: decode the field, force L to 1 when it is 0 (remembering
use_sign), read the field value, and multiply by the sign of the source word
exactly when the field included the sign position. -/
def field_operand (B : Nat) (word : Word) (F : Nat) : Int :=
  let spec := get_field_specification F
  let use_sign := spec.1 = 0
  let spec2 := if spec.1 = 0 then (1, spec.2) else spec
  let v : Int := (get_field_val B spec2.1 spec2.2 word.value : Int)
  if use_sign then v * word.sign.value else v

/-- Mirrors Simulator.ADD: rA.value becomes the signed sum; the sign is POS
when the sum is positive, NEG when negative, and untouched when zero; the
stored magnitude is the absolute value. The overflow toggle is never touched
by this method, which the pass-through Bool records. -/
def ADD (B : Nat) (rA : Register) (overflow_toggle : Bool) (word : Word)
    (F : Nat) : Register × Bool :=
  let addend := field_operand B word F
  let v : Int := (rA.value : Int) * rA.sign.value + addend
  let sign := if 0 < v then Sign.POS else if v < 0 then Sign.NEG else rA.sign
  ({ rA with sign := sign, value := v.natAbs }, overflow_toggle)

/-- Mirrors Simulator.SUB: identical to ADD except the operand is called the
subtrahend; note the source adds it to rA.value rather than subtracting. -/
def SUB (B : Nat) (rA : Register) (overflow_toggle : Bool) (word : Word)
    (F : Nat) : Register × Bool :=
  let subtrahend := field_operand B word F
  let v : Int := (rA.value : Int) * rA.sign.value + subtrahend
  let sign := if 0 < v then Sign.POS else if v < 0 then Sign.NEG else rA.sign
  ({ rA with sign := sign, value := v.natAbs }, overflow_toggle)

/-- Mirrors the register dictionary built by Simulator.init_registers. -/
structure RegisterFile where
  A : Register
  X : Register
  J : Register
  i1 : Register
  i2 : Register
  i3 : Register
  i4 : Register
  i5 : Register
  i6 : Register
deriving DecidableEq

/-- Mirrors Simulator.init_registers: A and X are five-byte registers, J and
the six index registers are two-byte registers, all initialized POS and 0. -/
def init_registers : RegisterFile :=
  { A := Register.init 5, X := Register.init 5, J := Register.init 2
    i1 := Register.init 2, i2 := Register.init 2, i3 := Register.init 2
    i4 := Register.init 2, i5 := Register.init 2, i6 := Register.init 2 }

/-- Mirrors Simulator.init_memory: 4000 fresh zero words. -/
def init_memory : List Word :=
  List.replicate 4000 (Word.ofInt 0)

/-- The machine state fields set up by Simulator.__init__ and init_machine. -/
structure Simulator where
  max_byte_size : Int
  overflow_toggle : Bool
  is_halted : Bool
  time : Nat
  comparison_indicator : Comparison
  memory : List Word
  registers : RegisterFile
  rP : Word

/-- Mirrors Simulator.__init__: _verify_max_byte_size raises ByteSizeException
when the size is below BYTE_MIN = 64 or above BYTE_MAX = 100 (modelled as
none); otherwise the size is stored and init_machine builds the rest. -/
def Simulator.make (max_byte_size : Int) : Option Simulator :=
  if max_byte_size < 64 ∨ 100 < max_byte_size then none
  else some
    { max_byte_size := max_byte_size
      overflow_toggle := false
      is_halted := false
      time := 0
      comparison_indicator := Comparison.EQUAL
      memory := init_memory
      registers := init_registers
      rP := Word.ofInt 0 }

/-! ### Byte-list helper lemmas

digitList B n x is the list of the n least-significant base-B digits of x,
most-significant first. It is the reference characterization of _get_bytes
used throughout the proofs. -/

def digitList (B : Nat) : Nat → Nat → List Nat
  | 0, _ => []
  | n + 1, x => (x / B ^ n % B) :: digitList B n x

theorem digitList_length (B : Nat) : ∀ n x, (digitList B n x).length = n
  | 0, _ => rfl
  | n + 1, x => by simp [digitList, digitList_length B n x]

theorem digitList_mem_lt (B : Nat) (hB : 0 < B) :
    ∀ n x, ∀ y ∈ digitList B n x, y < B
  | 0, _ => by simp [digitList]
  | n + 1, x => by
    intro y hy
    rcases List.mem_cons.mp hy with h | h
    · subst h; exact Nat.mod_lt _ hB
    · exact digitList_mem_lt B hB n x y h

theorem get_bytes_eq_digitList (B v : Nat) : _get_bytes B v = digitList B 5 v := by
  simp [_get_bytes, digitList, Nat.div_div_eq_div_mul]
  norm_num [pow_succ]

theorem bytes_to_val_go_append (B : Nat) :
    ∀ (l1 l2 : List Nat) (v p : Nat),
      _bytes_to_val_go B (l1 ++ l2) v p =
        _bytes_to_val_go B l2 (_bytes_to_val_go B l1 v p) (p + l1.length)
  | [], l2, v, p => by simp [_bytes_to_val_go]
  | b :: rest, l2, v, p => by
    simp only [List.cons_append, _bytes_to_val_go, List.length_cons]
    rw [List.append_eq, bytes_to_val_go_append B rest l2 (v + b * B ^ p) (p + 1)]
    congr 1
    omega

theorem bytes_to_val_cons (B d : Nat) (l : List Nat) :
    _bytes_to_val B (d :: l) = _bytes_to_val B l + d * B ^ l.length := by
  simp only [_bytes_to_val, List.reverse_cons]
  rw [bytes_to_val_go_append B l.reverse [d] 0 0]
  simp [_bytes_to_val_go]

theorem bytes_to_val_digitList (B : Nat) :
    ∀ n x, _bytes_to_val B (digitList B n x) = x % B ^ n
  | 0, x => by simp [digitList, _bytes_to_val, _bytes_to_val_go, Nat.mod_one]
  | n + 1, x => by
    rw [digitList, bytes_to_val_cons, digitList_length,
      bytes_to_val_digitList B n x, pow_succ, Nat.mod_mul]
    ring

theorem bytes_to_val_lt (B : Nat) (hB : 0 < B) :
    ∀ l : List Nat, (∀ y ∈ l, y < B) → _bytes_to_val B l < B ^ l.length
  | [], _ => by simp [_bytes_to_val, _bytes_to_val_go]
  | d :: l, h => by
    rw [bytes_to_val_cons, List.length_cons, pow_succ]
    have hd : d < B := h d (List.mem_cons_self d l)
    have hl : _bytes_to_val B l < B ^ l.length :=
      bytes_to_val_lt B hB l (fun y hy => h y (List.mem_cons_of_mem d hy))
    calc _bytes_to_val B l + d * B ^ l.length
        < B ^ l.length + d * B ^ l.length := by omega
      _ = (d + 1) * B ^ l.length := by ring
      _ ≤ B * B ^ l.length := Nat.mul_le_mul_right _ (by omega)
      _ = B ^ l.length * B := by ring

theorem digitList_add_mul (B : Nat) (hB : 0 < B) :
    ∀ n x c, digitList B n (x + c * B ^ n) = digitList B n x
  | 0, x, c => rfl
  | n + 1, x, c => by
    have hdiv : (x + c * B ^ (n + 1)) / B ^ n = x / B ^ n + c * B := by
      have h1 : c * B ^ (n + 1) = c * B * B ^ n := by ring
      rw [h1, Nat.add_mul_div_right _ _ (Nat.pos_pow_of_pos n hB)]
    have hmod : (x / B ^ n + c * B) % B = x / B ^ n % B := by
      simp [Nat.add_mul_mod_self_right]
    have htail : x + c * B ^ (n + 1) = x + c * B * B ^ n := by ring
    rw [digitList, digitList, hdiv, hmod, htail, digitList_add_mul B hB n x (c * B)]

theorem digitList_bytes_to_val (B : Nat) (hB : 0 < B) :
    ∀ l : List Nat, (∀ y ∈ l, y < B) →
      digitList B l.length (_bytes_to_val B l) = l
  | [], _ => rfl
  | d :: l, h => by
    have hd : d < B := h d (List.mem_cons_self d l)
    have hl : ∀ y ∈ l, y < B := fun y hy => h y (List.mem_cons_of_mem d hy)
    have hlt : _bytes_to_val B l < B ^ l.length := bytes_to_val_lt B hB l hl
    rw [bytes_to_val_cons, List.length_cons, digitList]
    have hdiv : (_bytes_to_val B l + d * B ^ l.length) / B ^ l.length = d := by
      rw [Nat.add_mul_div_right _ _ (Nat.pos_pow_of_pos _ hB),
        Nat.div_eq_of_lt hlt]
      omega
    rw [hdiv, Nat.mod_eq_of_lt hd]
    have := digitList_add_mul B hB l.length (_bytes_to_val B l) d
    rw [this, digitList_bytes_to_val B hB l hl]

theorem digitList_drop (B : Nat) :
    ∀ n k x, k ≤ n → (digitList B n x).drop k = digitList B (n - k) x
  | n, 0, x, _ => by simp
  | n + 1, k + 1, x, h => by
    rw [digitList, List.drop_succ_cons,
      digitList_drop B n k x (Nat.le_of_succ_le_succ h)]
    congr 1
    omega

theorem digitList_take (B : Nat) (hB : 0 < B) :
    ∀ n k x, k ≤ n → (digitList B n x).take k = digitList B k (x / B ^ (n - k))
  | n, 0, x, _ => by simp [digitList]
  | n + 1, k + 1, x, h => by
    have hk : k ≤ n := Nat.le_of_succ_le_succ h
    have hsub : n + 1 - (k + 1) = n - k := by omega
    rw [hsub, digitList, List.take_succ_cons, digitList_take B hB n k x hk]
    have hhead : x / B ^ (n - k) / B ^ k = x / B ^ n := by
      rw [Nat.div_div_eq_div_mul, ← pow_add, Nat.sub_add_cancel hk]
    rw [digitList, hhead]

theorem get_bytes_length (B v : Nat) : (_get_bytes B v).length = 5 := by
  rw [get_bytes_eq_digitList, digitList_length]

theorem get_bytes_mem_lt (B v : Nat) (hB : 0 < B) :
    ∀ y ∈ _get_bytes B v, y < B := by
  rw [get_bytes_eq_digitList]
  exact digitList_mem_lt B hB 5 v

/-- Closed form of get_field_val on a field i..j that stays inside the five
bytes: the selected bytes, read positionally, are the base-B number
v / B ^ (5 - j) mod B ^ (j + 1 - i). -/
theorem field_val_formula (B v i j : Nat) (hB : 0 < B) (hi : 1 ≤ i)
    (hij : i ≤ j) (hj : j ≤ 5) :
    get_field_val B i j v = v / B ^ (5 - j) % B ^ (j + 1 - i) := by
  show _bytes_to_val B (((_get_bytes B v).drop (i - 1)).take (j - (i - 1))) =
    v / B ^ (5 - j) % B ^ (j + 1 - i)
  rw [get_bytes_eq_digitList, digitList_drop B 5 (i - 1) v (by omega),
    digitList_take B hB (5 - (i - 1)) (j - (i - 1)) v (by omega)]
  have h1 : 5 - (i - 1) - (j - (i - 1)) = 5 - j := by omega
  have h2 : j - (i - 1) = j + 1 - i := by omega
  rw [h1, h2, bytes_to_val_digitList]

/-- Claim C5: for every magnitude below B ^ 5 the byte encoding round-trips:
decoding the five-byte big-endian encoding of m gives back m, for every
configured radix in the valid range 64..100. -/
theorem bytes_round_trip (B m : Nat) (h64 : 64 ≤ B) (h100 : B ≤ 100)
    (hm : m < B ^ 5) :
    _bytes_to_val B (_get_bytes B m) = m := by
  rw [get_bytes_eq_digitList, bytes_to_val_digitList, Nat.mod_eq_of_lt hm]

theorem bytes_round_trip_witness :
    64 ≤ 64 ∧ (64 : Nat) ≤ 100 ∧ 17314053 < 64 ^ 5 ∧
      _bytes_to_val 64 (_get_bytes 64 17314053) = 17314053 :=
  ⟨by norm_num, by norm_num, by norm_num,
    bytes_round_trip 64 17314053 (by norm_num) (by norm_num) (by norm_num)⟩

/-- Claim C4: loading a field (L, R) with 0 <= L <= R <= 5 yields the sign of
the source word when L = 0 and POS otherwise, and the magnitude consisting of
bytes max(1, L)..R of the word, i.e. value / B ^ (5 - R) mod
B ^ (R + 1 - max 1 L). -/
theorem LD_field_semantics (B : Nat) (register : Register) (word : Word)
    (L R : Nat) (h64 : 64 ≤ B) (h100 : B ≤ 100) (hLR : L ≤ R) (hR : R ≤ 5) :
    (LD B register word (8 * L + R)).sign =
      (if L = 0 then word.sign else Sign.POS) ∧
    (LD B register word (8 * L + R)).value =
      word.value / B ^ (5 - R) % B ^ (R + 1 - max 1 L) := by
  have hB : 0 < B := by omega
  have hq : (8 * L + R) / 8 = L := by omega
  have hr : (8 * L + R) % 8 = R := by omega
  constructor
  · have hq0 : R / 8 = 0 := by omega
    by_cases h : L = 0 <;>
      simp [LD, get_field_specification, hq, hr, h, hq0]
  · simp only [LD, get_field_specification, hq, hr]
    by_cases h : L = 0
    · subst h
      simp only [if_pos rfl]
      rcases Nat.eq_zero_or_pos R with hR0 | hR1
      · subst hR0
        show _bytes_to_val B (((_get_bytes B word.value).drop 0).take 0) = _
        simp [_bytes_to_val, _bytes_to_val_go, Nat.mod_one]
      · have hmax : max 1 0 = 1 := by omega
        rw [hmax]
        exact field_val_formula B word.value 1 R hB (le_refl 1) hR1 hR
    · have hL1 : 1 ≤ L := by omega
      have hmax : max 1 L = L := by omega
      rw [hmax]
      simp only [if_neg h]
      exact field_val_formula B word.value L R hB hL1 hLR hR

theorem LD_field_semantics_witness :
    (LD 64 (Register.init 5) (Word.mk Sign.NEG 30) (8 * 0 + 5)).sign =
      Sign.NEG ∧
    (LD 64 (Register.init 5) (Word.mk Sign.NEG 30) (8 * 0 + 5)).value = 30 := by
  have h := LD_field_semantics 64 (Register.init 5) (Word.mk Sign.NEG 30) 0 5
    (by norm_num) (by norm_num) (by norm_num) (by norm_num)
  refine ⟨h.1.trans (by norm_num), h.2.trans (by norm_num)⟩

/-- Claim C6: storing with a field (L, R), 1 <= L <= R <= 5, keeps the sign of
the memory word and produces the word whose byte decomposition is: the memory
bytes before position L, then the last (R - L + 1) bytes of the register
(right-justified low bytes), then the memory bytes after position R. -/
theorem ST_frame_effect (B : Nat) (register : Register) (word : Word)
    (L R : Nat) (h64 : 64 ≤ B) (h100 : B ≤ 100) (hL : 1 ≤ L) (hLR : L ≤ R)
    (hR : R ≤ 5) :
    (ST B register word (8 * L + R)).sign = word.sign ∧
    _get_bytes B (ST B register word (8 * L + R)).value =
      (_get_bytes B word.value).take (L - 1) ++
        (_get_bytes B register.value).drop (5 - (1 + R - L)) ++
        (_get_bytes B word.value).drop R := by
  have hB : 0 < B := by omega
  have hq : (8 * L + R) / 8 = L := by omega
  have hr : (8 * L + R) % 8 = R := by omega
  have hL0 : ¬(L = 0) := by omega
  have hn : (0 : Int) < 1 + (R : Int) - (L : Int) := by omega
  have hslice :
      pyTailSlice (_get_bytes B register.value) (1 + (R : Int) - (L : Int)) =
        (_get_bytes B register.value).drop (5 - (1 + R - L)) := by
    rw [pyTailSlice, if_pos hn, get_bytes_length]
    congr 1
    omega
  have hval : ST B register word (8 * L + R) =
      { sign := word.sign
        value := _bytes_to_val B
          ((_get_bytes B word.value).take (L - 1) ++
            (_get_bytes B register.value).drop (5 - (1 + R - L)) ++
            (_get_bytes B word.value).drop R) } := by
    simp only [ST, get_field_specification, hq, hr, if_neg hL0]
    rw [hslice]
  rw [hval]
  refine ⟨rfl, ?_⟩
  set l := (_get_bytes B word.value).take (L - 1) ++
    (_get_bytes B register.value).drop (5 - (1 + R - L)) ++
    (_get_bytes B word.value).drop R with hl
  have hlen : l.length = 5 := by
    rw [hl]
    simp only [List.length_append, List.length_take, List.length_drop,
      get_bytes_length]
    omega
  have hmem : ∀ y ∈ l, y < B := by
    intro y hy
    rw [hl] at hy
    rcases List.mem_append.mp hy with hy1 | hy2
    · rcases List.mem_append.mp hy1 with hy3 | hy4
      · exact get_bytes_mem_lt B word.value hB y (List.take_subset _ _ hy3)
      · exact get_bytes_mem_lt B register.value hB y (List.drop_subset _ _ hy4)
    · exact get_bytes_mem_lt B word.value hB y (List.drop_subset _ _ hy2)
  rw [get_bytes_eq_digitList]
  have h5 : (5 : Nat) = l.length := hlen.symm
  rw [h5, digitList_bytes_to_val B hB l hmem]

theorem ST_frame_effect_witness :
    (ST 64 (Register.mk Sign.POS 102531648 5) (Word.mk Sign.NEG 17314053)
      (8 * 2 + 3)).sign = Sign.NEG ∧
    _get_bytes 64 (ST 64 (Register.mk Sign.POS 102531648 5)
      (Word.mk Sign.NEG 17314053) (8 * 2 + 3)).value = [1, 9, 0, 4, 5] := by
  have h := ST_frame_effect 64 (Register.mk Sign.POS 102531648 5)
    (Word.mk Sign.NEG 17314053) 2 3 (by norm_num) (by norm_num) (by norm_num)
    (by norm_num) (by norm_num)
  exact ⟨h.1, h.2.trans (by decide)⟩

/-- Claim C8 counterexample: with register A holding minus five and the
operand word plus five at full field, the signed sum is exactly zero but the
stored sign is NEG, not POS: the claim that a zero result stores POS fails. -/
theorem ADD_zero_stores_pos_counterexample :
    ¬((ADD 64 (Register.mk Sign.NEG 5 5) false (Word.mk Sign.POS 5) 5).1.sign =
      Sign.POS) := by
  decide

/-- Claim C8 (amended): an ADD whose signed mathematical sum is exactly zero
stores magnitude 0 and leaves the sign of register A unchanged (the prior
sign is retained; it is POS only when A already held POS). -/
theorem ADD_zero_keeps_sign (B : Nat) (rA : Register) (t : Bool) (word : Word)
    (F : Nat)
    (h : (rA.value : Int) * rA.sign.value + field_operand B word F = 0) :
    (ADD B rA t word F).1.value = 0 ∧ (ADD B rA t word F).1.sign = rA.sign := by
  simp only [ADD, h]
  norm_num

theorem ADD_zero_keeps_sign_witness :
    (ADD 64 (Register.mk Sign.NEG 5 5) false (Word.mk Sign.POS 5) 5).1.value =
      0 ∧
    (ADD 64 (Register.mk Sign.NEG 5 5) false (Word.mk Sign.POS 5) 5).1.sign =
      Sign.NEG :=
  ADD_zero_keeps_sign 64 (Register.mk Sign.NEG 5 5) false (Word.mk Sign.POS 5)
    5 (by decide)

/-- Claim C7: the J register is an ordinary Register (init_registers builds it
as Register(2) with no sign-ignoring behaviour), so a write that carries a
negative sign, such as an LD of a negative word into rJ, is read back as NEG,
contradicting the claim that every read of rJ returns POS. -/
theorem rJ_write_neg_reads_neg :
    init_registers.J.sign = Sign.POS ∧
    (LD 64 init_registers.J (Word.ofInt (-30)) 5).sign = Sign.NEG := by
  decide

/-- Claim C9: constructing a Simulator fails (ByteSizeException) exactly when
the requested byte size is outside 64..100, and a valid size is stored
unchanged in the constructed machine. -/
theorem byte_size_validation (size : Int) :
    (Simulator.make size = none ↔ size < 64 ∨ 100 < size) ∧
    (Simulator.make size).map Simulator.max_byte_size =
      (if size < 64 ∨ 100 < size then none else some size) := by
  unfold Simulator.make
  by_cases h : size < 64 ∨ 100 < size <;> simp [h]

/-- Claim C10: the Word constructor stores magnitude abs(v), sign POS for
nonnegative v and NEG for negative v; in particular it can never produce a
negative zero. -/
theorem word_ofInt_sign_magnitude (v : Int) :
    (Word.ofInt v).value = v.natAbs ∧
    (Word.ofInt v).sign = (if 0 ≤ v then Sign.POS else Sign.NEG) ∧
    ¬((Word.ofInt v).sign = Sign.NEG ∧ (Word.ofInt v).value = 0) := by
  refine ⟨rfl, rfl, ?_⟩
  rintro ⟨hs, hv⟩
  by_cases h : 0 ≤ v
  · simp [Word.ofInt, h] at hs
  · have : v.natAbs ≠ 0 := by omega
    exact this hv

/-- Claim C1: evaluation at a failing input. With register A holding plus
five and the memory operand plus three at full field, the source SUB adds the
operand: register A ends at (POS, 8), not the signed difference (POS, 2)
required by the claim. -/
theorem SUB_adds_at_failing_input :
    (SUB 64 (Register.mk Sign.POS 5 5) false (Word.mk Sign.POS 3) 5).1.value =
      8 ∧
    (SUB 64 (Register.mk Sign.POS 5 5) false (Word.mk Sign.POS 3) 5).1.sign =
      Sign.POS ∧
    ¬((SUB 64 (Register.mk Sign.POS 5 5) false (Word.mk Sign.POS 3) 5).1.value =
      2) := by
  decide

/-- Claim C2: evaluation at a failing input. Adding plus one to register A
holding radix ^ 5 - 1 (radix 64) produces the signed sum 64 ^ 5: the source
stores the untruncated magnitude 64 ^ 5 (not 0 = 64 ^ 5 mod 64 ^ 5) and
leaves the overflow toggle untouched (false), contradicting the claimed
overflow handling. -/
theorem ADD_overflow_unhandled_at_failing_input :
    (ADD 64 (Register.mk Sign.POS (64 ^ 5 - 1) 5) false (Word.mk Sign.POS 1)
      5).1.value = 64 ^ 5 ∧
    (ADD 64 (Register.mk Sign.POS (64 ^ 5 - 1) 5) false (Word.mk Sign.POS 1)
      5).2 = false := by
  decide

/-- A 4000-word memory whose last cell (address 3999) is marked with
magnitude 7, used to exhibit the wraparound of negative addresses. -/
def marked_memory : List Word :=
  List.replicate 3999 (Word.ofInt 0) ++ [Word.ofInt 7]

/-- Claim C3: evaluation at a failing input. The memory subscript
self.memory[address] follows Python list semantics: address -1 silently
returns the last cell (address 3999) instead of failing, so an LD at
effective address -1 succeeds and loads the marked word; an address beyond
3999 raises IndexError (none), not the MemoryBoundsError the claim names
(the MemoryLimitExceededException class of the source is never raised). -/
theorem memory_negative_address_wraps :
    pyGetItem marked_memory (-1) = some (Word.ofInt 7) ∧
    LD_mem 64 (Register.init 5) marked_memory (-1) 5 =
      some (LD 64 (Register.init 5) (Word.ofInt 7) 5) ∧
    pyGetItem marked_memory 4000 = none := by
  have hrep : (List.replicate 3999 (Word.ofInt 0)).length = 3999 :=
    List.length_replicate 3999 (Word.ofInt 0)
  have hlen : marked_memory.length = 4000 := by
    rw [marked_memory, List.length_append, hrep]
    rfl
  have hlast : marked_memory.get? 3999 = some (Word.ofInt 7) := by
    rw [marked_memory, List.get?_append_right hrep.le, hrep]
    rfl
  have hneg : pyGetItem marked_memory (-1) = some (Word.ofInt 7) := by
    rw [pyGetItem, if_neg (by norm_num), if_pos (by rw [hlen]; norm_num), hlen]
    exact hlast
  refine ⟨hneg, ?_, ?_⟩
  · rw [LD_mem, hneg]
    rfl
  · rw [pyGetItem, if_pos (by norm_num), List.get?_eq_none, hlen]
    norm_num

end Mix
